import Mathlib

set_option maxHeartbeats 1000000

/- Shallow embedding of src/app.py: the slugify, unique-slug and excerpt
helpers and the published-entity views and toggle actions of the Flask
application. Strings are modelled as lists of characters, the Python
regular-expression classes are modelled over ASCII, and the database query
surface is modelled as explicit lists of persisted rows. -/

/-- ASCII whitespace: the model of the Python whitespace class used by
str.strip and by the regex class backslash-s. -/
def isPySpace (c : Char) : Bool :=
  c == ' ' || c == '\t' || c == '\n' || c == '\r' || c == '\x0b' || c == '\x0c'

/-- ASCII lowering: the model of str.lower. -/
def pyLower (c : Char) : Char :=
  if 'A' ≤ c ∧ c ≤ 'Z' then Char.ofNat (c.toNat + 32) else c

/-- The character class kept by the first re.sub in slugify: lowercase ASCII
letters, digits, whitespace and hyphen. -/
def keepChar (c : Char) : Bool :=
  (decide ('a' ≤ c) && decide (c ≤ 'z')) ||
  (decide ('0' ≤ c) && decide (c ≤ '9')) ||
  isPySpace c || c == '-'

/-- Membership in the run class of the second re.sub in slugify: whitespace
or hyphen. -/
def isSpaceHy (c : Char) : Bool := isPySpace c || c == '-'

/-- Replace every maximal run of whitespace-or-hyphen characters by a single
hyphen; the Bool flag records whether the previous character belonged to a
run. This is the embedding of the second re.sub in slugify. -/
def collapseAux : Bool → List Char → List Char
  | _, [] => []
  | inRun, c :: rest =>
    if isSpaceHy c then
      if inRun then collapseAux true rest else '-' :: collapseAux true rest
    else c :: collapseAux false rest

def collapseRuns (l : List Char) : List Char := collapseAux false l

/-- str.strip with an explicit character class: drop matching characters from
both ends. -/
def stripChar (p : Char → Bool) (l : List Char) : List Char :=
  (l.dropWhile p).rdropWhile p

/-- Decimal digits of a natural number, most significant first: the embedding
of the Python decimal formatting of the loop counter. Structural fuel keeps
the definition kernel-reducible; any fuel above the number gives the same
digits. -/
def natDigitsAux : Nat → Nat → List Char
  | 0, _ => []
  | f + 1, n =>
    if n < 10 then [Nat.digitChar n]
    else natDigitsAux f (n / 10) ++ [Nat.digitChar (n % 10)]

def natDigits (n : Nat) : List Char := natDigitsAux (n + 1) n

/-- The cleaned slug computed by slugify before the fallback test: lower,
filter to the kept class, collapse runs, strip hyphens at both ends. -/
def cleanedSlug (value : List Char) : List Char :=
  stripChar (fun c => c == '-') (collapseRuns ((value.map pyLower).filter keepChar))

/-- slugify from src/app.py. The current time in whole seconds is passed as
the explicit argument now. -/
def slugify (value : List Char) (fallbackPrefix : List Char) (now : Nat) : List Char :=
  let slug := cleanedSlug value
  if slug = [] then fallbackPrefix ++ '-' :: natDigits now else slug

/-- Python slice l[:k] with an Int bound: a negative bound counts from the
end of the list. -/
def pySliceTo (l : List Char) (k : Int) : List Char :=
  if 0 ≤ k then l.take k.toNat else l.take (l.length - (-k).toNat)

/-- Python truthiness of the optional max_length: None and 0 are falsy. -/
def optTruthy : Option Nat → Bool
  | none => false
  | some n => n != 0

/-- slug_root of generate_unique_slug: the base slug truncated to max_length
when max_length is truthy. -/
def slugRoot (maxLength : Option Nat) (base : List Char) : List Char :=
  if optTruthy maxLength then base.take (maxLength.getD 0) else base

/-- The root as truncated inside the loop of generate_unique_slug to make
room for a suffix of the given length. -/
def trimmedRoot (maxLength : Option Nat) (root : List Char) (suffixLen : Nat) : List Char :=
  if optTruthy maxLength then pySliceTo root ((maxLength.getD 0 : Int) - (suffixLen : Int))
  else root

/-- The candidate tried at loop index i of generate_unique_slug: index 0 is
the root itself, and index i appends the suffix hyphen-i after trimming the
root. -/
def slugAttempt (maxLength : Option Nat) (root : List Char) (i : Nat) : List Char :=
  if i = 0 then root
  else trimmedRoot maxLength root (1 + (natDigits i).length) ++ '-' :: natDigits i

/-- The while loop of generate_unique_slug with explicit fuel; the existence
query against the slug column is membership in the list used of persisted
slugs. Fuel two more than the number of used slugs always suffices, which is
proved below. -/
def uniqueSlugFrom (used : List (List Char)) (maxLength : Option Nat)
    (root : List Char) : Nat → Nat → Option (List Char)
  | 0, _ => none
  | fuel + 1, i =>
    if slugAttempt maxLength root i ∈ used then
      uniqueSlugFrom used maxLength root fuel (i + 1)
    else some (slugAttempt maxLength root i)

/-- generate_unique_slug from src/app.py: the model class is represented by
the list of its persisted slugs together with the declared length of its
slug column (160 for Tool, 180 for Post). -/
def generate_unique_slug (used : List (List Char)) (maxLength : Option Nat)
    (base_slug : List Char) : List Char :=
  (uniqueSlugFrom used maxLength (slugRoot maxLength base_slug) (used.length + 2) 0).getD
    (slugRoot maxLength base_slug)

/-- str.strip with no argument: strip whitespace from both ends. -/
def pyStrip (l : List Char) : List Char := stripChar isPySpace l

/-- rsplit on a single space with maxsplit 1, first component: everything
before the last space character, or the whole list when no space occurs. -/
def beforeLastSpace (l : List Char) : List Char :=
  if ' ' ∈ l then ((l.reverse.dropWhile fun c => c != ' ').drop 1).reverse else l

/-- derive_excerpt from src/app.py; max_length is a natural number since the
callers pass a column length or the literal 200. -/
def derive_excerpt (content : List Char) (max_length : Nat) : List Char :=
  let excerpt_candidate := pyStrip content
  if excerpt_candidate.length ≤ max_length then excerpt_candidate
  else
    let truncated := beforeLastSpace (excerpt_candidate.take max_length)
    if truncated = [] then excerpt_candidate.take max_length else truncated

/-- A persisted row of the tools table. -/
structure Tool where
  id : Nat
  title : List Char
  slug : List Char
  summary : List Char
  content : List Char
  created_at : Nat
  is_published : Bool
deriving DecidableEq

/-- A persisted row of the posts table. -/
structure Post where
  id : Nat
  title : List Char
  slug : List Char
  excerpt : List Char
  content : List Char
  created_at : Nat
  is_published : Bool
deriving DecidableEq

/-- The order_by clause created_at.desc() on tools. -/
def toolNewestFirst (a b : Tool) : Prop := b.created_at ≤ a.created_at

instance : DecidableRel toolNewestFirst := fun _ _ => Nat.decLe _ _

instance : IsTotal Tool toolNewestFirst :=
  ⟨fun a b => Nat.le_total b.created_at a.created_at⟩

instance : IsTrans Tool toolNewestFirst :=
  ⟨fun _ _ _ hab hbc => Nat.le_trans hbc hab⟩

/-- The order_by clause created_at.desc() on posts. -/
def postNewestFirst (a b : Post) : Prop := b.created_at ≤ a.created_at

instance : DecidableRel postNewestFirst := fun _ _ => Nat.decLe _ _

instance : IsTotal Post postNewestFirst :=
  ⟨fun a b => Nat.le_total b.created_at a.created_at⟩

instance : IsTrans Post postNewestFirst :=
  ⟨fun _ _ _ hab hbc => Nat.le_trans hbc hab⟩

/-- The tools block of the index view: published tools, newest first. -/
def index_tools (tools : List Tool) : List Tool :=
  List.insertionSort toolNewestFirst (tools.filter fun t => t.is_published)

/-- The posts block of the index view: published posts, newest first,
limited to 3 rows. -/
def index_posts (posts : List Post) : List Post :=
  (List.insertionSort postNewestFirst (posts.filter fun p => p.is_published)).take 3

/-- The blog_index view: published posts, newest first. -/
def blog_index (posts : List Post) : List Post :=
  List.insertionSort postNewestFirst (posts.filter fun p => p.is_published)

/-- The tool_detail view before rendering: the first published tool with the
given slug, none meaning the 404 response. -/
def tool_detail (tools : List Tool) (slug : List Char) : Option Tool :=
  (tools.filter fun t => t.slug == slug && t.is_published).head?

/-- The blog_detail view before rendering: the first published post with the
given slug, none meaning the 404 response. -/
def blog_detail (posts : List Post) (slug : List Char) : Option Post :=
  (posts.filter fun p => p.slug == slug && p.is_published).head?

/-- The single-row update of toggle_tool: flip the published flag of the row
with the given primary key, leave every other row alone. -/
def toggleFlipTool (tid : Nat) (t : Tool) : Tool :=
  if t.id == tid then { t with is_published := !t.is_published } else t

/-- The single-row update of toggle_post. -/
def toggleFlipPost (pid : Nat) (p : Post) : Post :=
  if p.id == pid then { p with is_published := !p.is_published } else p

/-- The toggle_tool action: none models the 404 of get_or_404 with the store
unchanged; otherwise the published flag of the row with the given primary
key is flipped and the new store returned. -/
def toggle_tool (tools : List Tool) (tool_id : Nat) : Option (List Tool) :=
  if tools.any fun t => t.id == tool_id then
    some (tools.map (toggleFlipTool tool_id))
  else none

/-- The toggle_post action, identical in shape to toggle_tool. -/
def toggle_post (posts : List Post) (post_id : Nat) : Option (List Post) :=
  if posts.any fun p => p.id == post_id then
    some (posts.map (toggleFlipPost post_id))
  else none

/-! ### Facts about decimal digits -/

theorem natDigitsAux_irrel : ∀ f₁ f₂ n : Nat, n < f₁ → n < f₂ →
    natDigitsAux f₁ n = natDigitsAux f₂ n := by
  intro f₁
  induction f₁ with
  | zero => intro f₂ n h₁ _; omega
  | succ g ih =>
    intro f₂ n h₁ h₂
    cases f₂ with
    | zero => omega
    | succ h =>
      simp only [natDigitsAux]
      by_cases hn : n < 10
      · simp [hn]
      · have hd : n / 10 < n := Nat.div_lt_self (by omega) (by omega)
        rw [if_neg hn, if_neg hn, ih h (n / 10) (by omega) (by omega)]

theorem natDigits_unfold (n : Nat) :
    natDigits n = if n < 10 then [Nat.digitChar n]
      else natDigits (n / 10) ++ [Nat.digitChar (n % 10)] := by
  by_cases hn : n < 10
  · simp [natDigits, natDigitsAux, hn]
  · have hd : n / 10 < n := Nat.div_lt_self (by omega) (by omega)
    rw [if_neg hn]
    show natDigitsAux (n + 1) n = natDigits (n / 10) ++ [Nat.digitChar (n % 10)]
    have h1 : natDigitsAux (n + 1) n = natDigitsAux n (n / 10) ++ [Nat.digitChar (n % 10)] := by
      simp only [natDigitsAux, if_neg hn]
    rw [h1]
    congr 1
    exact natDigitsAux_irrel n (n / 10 + 1) (n / 10) (by omega) (by omega)

theorem digitChar_facts : ∀ m : Nat, m < 10 →
    '0' ≤ Nat.digitChar m ∧ Nat.digitChar m ≤ '9' ∧ (Nat.digitChar m).toNat = 48 + m := by
  intro m hm
  interval_cases m <;> exact (by decide)

theorem natDigits_mem : ∀ (n : Nat) (c : Char), c ∈ natDigits n → '0' ≤ c ∧ c ≤ '9' := by
  intro n
  induction n using Nat.strong_induction_on with
  | _ n ih =>
    intro c h
    rw [natDigits_unfold] at h
    by_cases hn : n < 10
    · rw [if_pos hn] at h
      rcases List.mem_singleton.mp h with rfl
      exact ⟨(digitChar_facts n hn).1, (digitChar_facts n hn).2.1⟩
    · rw [if_neg hn] at h
      rcases List.mem_append.mp h with h | h
      · exact ih (n / 10) (Nat.div_lt_self (by omega) (by omega)) c h
      · rcases List.mem_singleton.mp h with rfl
        have hm : n % 10 < 10 := Nat.mod_lt _ (by omega)
        exact ⟨(digitChar_facts _ hm).1, (digitChar_facts _ hm).2.1⟩

theorem natDigits_mem_ne_hyphen {n : Nat} {c : Char} (h : c ∈ natDigits n) : c ≠ '-' := by
  have := natDigits_mem n c h
  intro hc
  rw [hc] at this
  exact absurd this (by decide)

theorem natDigits_ne_nil (n : Nat) : natDigits n ≠ [] := by
  rw [natDigits_unfold]
  split <;> simp

/-- The value read back from a digit list, used to show that decimal
rendering is injective. -/
def digitsVal (l : List Char) : Nat := l.foldl (fun a c => 10 * a + (c.toNat - 48)) 0

theorem natDigits_val : ∀ n : Nat, digitsVal (natDigits n) = n := by
  intro n
  induction n using Nat.strong_induction_on with
  | _ n ih =>
    rw [natDigits_unfold]
    by_cases hn : n < 10
    · rw [if_pos hn]
      simp [digitsVal, (digitChar_facts n hn).2.2]
    · rw [if_neg hn]
      have hd : n / 10 < n := Nat.div_lt_self (by omega) (by omega)
      have hm : n % 10 < 10 := Nat.mod_lt _ (by omega)
      simp only [digitsVal, List.foldl_append, List.foldl_cons, List.foldl_nil]
      have hv := ih (n / 10) hd
      simp only [digitsVal] at hv
      rw [hv, (digitChar_facts _ hm).2.2]
      omega

theorem natDigits_inj {i j : Nat} (h : natDigits i = natDigits j) : i = j := by
  have hi := natDigits_val i
  rw [h, natDigits_val j] at hi
  exact hi.symm

theorem natDigits_length_pos (n : Nat) : 0 < (natDigits n).length := by
  rw [natDigits_unfold]
  split <;> simp

theorem natDigits_length_mono : ∀ j i : Nat, i ≤ j →
    (natDigits i).length ≤ (natDigits j).length := by
  intro j
  induction j using Nat.strong_induction_on with
  | _ j ih =>
    intro i hij
    by_cases hj : j < 10
    · have hi : i < 10 := by omega
      rw [natDigits_unfold i, natDigits_unfold j, if_pos hi, if_pos hj]
      simp
    · rw [natDigits_unfold j, if_neg hj]
      by_cases hi : i < 10
      · rw [natDigits_unfold i, if_pos hi]
        have := natDigits_length_pos (j / 10)
        simp only [List.length_singleton, List.length_append, List.length_cons]
        omega
      · rw [natDigits_unfold i, if_neg hi]
        have h1 : i / 10 ≤ j / 10 := Nat.div_le_div_right hij
        have h2 := ih (j / 10) (Nat.div_lt_self (by omega) (by omega)) (i / 10) h1
        simp only [List.length_append, List.length_singleton]
        omega

/-! ### The loop candidates of generate_unique_slug are pairwise distinct at
positive indices, which bounds the number of collisions by the number of
used slugs. -/

theorem slugAttempt_zero (mL : Option Nat) (root : List Char) :
    slugAttempt mL root 0 = root := by
  simp [slugAttempt]

theorem slugAttempt_pos (mL : Option Nat) (root : List Char) {i : Nat} (hi : i ≠ 0) :
    slugAttempt mL root i =
      trimmedRoot mL root (1 + (natDigits i).length) ++ '-' :: natDigits i := by
  rw [slugAttempt, if_neg hi]

theorem slugAttempt_ne (mL : Option Nat) (root : List Char) {i j : Nat}
    (hi : i ≠ 0) (hij : i < j) : slugAttempt mL root i ≠ slugAttempt mL root j := by
  intro h
  have hj : j ≠ 0 := by omega
  rw [slugAttempt_pos mL root hi, slugAttempt_pos mL root hj] at h
  by_cases hlen : (natDigits i).length = (natDigits j).length
  · rw [hlen] at h
    have h2 : '-' :: natDigits i = '-' :: natDigits j := List.append_cancel_left h
    have h3 : natDigits i = natDigits j := by
      simpa using h2
    have := natDigits_inj h3
    omega
  · have hmono := natDigits_length_mono j i (Nat.le_of_lt hij)
    have hlt : (natDigits i).length < (natDigits j).length := by omega
    have hrev := congrArg List.reverse h
    simp only [List.reverse_append, List.reverse_cons] at hrev
    have e2 : (natDigits i).length < (natDigits j).reverse.length := by
      simpa using hlt
    have e1 : (((natDigits i).reverse ++ ['-']) ++
        (trimmedRoot mL root (1 + (natDigits i).length)).reverse)[(natDigits i).length]? =
        some '-' := by
      rw [List.getElem?_append_left (by simp),
          List.getElem?_append_right (by simp)]
      simp
    have e3 : (((natDigits j).reverse ++ ['-']) ++
        (trimmedRoot mL root (1 + (natDigits j).length)).reverse)[(natDigits i).length]? =
        ((natDigits j).reverse)[(natDigits i).length]? := by
      rw [List.getElem?_append_left (by simp; omega), List.getElem?_append_left e2]
    rw [hrev, e3, List.getElem?_eq_getElem e2] at e1
    have e5 : (natDigits j).reverse.get ⟨(natDigits i).length, e2⟩ ∈ (natDigits j).reverse :=
      List.get_mem _ _ _
    rw [List.mem_reverse] at e5
    have e6 := natDigits_mem_ne_hyphen e5
    have e7 : (natDigits j).reverse.get ⟨(natDigits i).length, e2⟩ = '-' := by
      have := e1
      simp only [Option.some.injEq] at this
      exact this
    exact e6 e7

/-! ### Termination and characterisation of the unique-slug loop -/

theorem uniqueSlugFrom_isSome (used : List (List Char)) (mL : Option Nat) (root : List Char) :
    ∀ fuel i : Nat, (∃ k, k < fuel ∧ slugAttempt mL root (i + k) ∉ used) →
      (uniqueSlugFrom used mL root fuel i).isSome := by
  intro fuel
  induction fuel with
  | zero =>
    intro i h
    obtain ⟨k, hk, _⟩ := h
    omega
  | succ f ih =>
    intro i h
    obtain ⟨k, hk, hku⟩ := h
    rw [uniqueSlugFrom]
    by_cases hmem : slugAttempt mL root i ∈ used
    · rw [if_pos hmem]
      cases k with
      | zero => exact absurd hmem (by simpa using hku)
      | succ k =>
        exact ih (i + 1) ⟨k, by omega, by
          have he : i + 1 + k = i + (k + 1) := by omega
          rw [he]
          exact hku⟩
    · rw [if_neg hmem]
      rfl

theorem uniqueSlugFrom_spec (used : List (List Char)) (mL : Option Nat) (root : List Char) :
    ∀ fuel i s, uniqueSlugFrom used mL root fuel i = some s →
      ∃ k, i ≤ k ∧ k < i + fuel ∧ s = slugAttempt mL root k ∧
        slugAttempt mL root k ∉ used ∧
        ∀ m, i ≤ m → m < k → slugAttempt mL root m ∈ used := by
  intro fuel
  induction fuel with
  | zero =>
    intro i s h
    simp [uniqueSlugFrom] at h
  | succ f ih =>
    intro i s h
    rw [uniqueSlugFrom] at h
    by_cases hmem : slugAttempt mL root i ∈ used
    · rw [if_pos hmem] at h
      obtain ⟨k, hk1, hk2, hk3, hk4, hk5⟩ := ih (i + 1) s h
      refine ⟨k, by omega, by omega, hk3, hk4, ?_⟩
      intro m hm1 hm2
      rcases Nat.eq_or_lt_of_le hm1 with hm | hm
      · rw [← hm]
        exact hmem
      · exact hk5 m (by omega) hm2
    · rw [if_neg hmem] at h
      injection h with h2
      exact ⟨i, Nat.le_refl i, by omega, h2.symm, hmem, fun m hm1 hm2 => by omega⟩

theorem exists_unused_attempt (used : List (List Char)) (mL : Option Nat) (root : List Char) :
    ∃ k, k < used.length + 2 ∧ slugAttempt mL root k ∉ used := by
  by_contra hc
  push_neg at hc
  have hinj : Set.InjOn (fun k => slugAttempt mL root (k + 1))
      ↑(Finset.range (used.length + 1)) := by
    intro a _ b _ hab
    simp only at hab
    by_contra hne
    rcases Nat.lt_or_ge a b with h | h
    · exact slugAttempt_ne mL root (i := a + 1) (j := b + 1) (by omega) (by omega) hab
    · have h2 : b < a := by omega
      exact slugAttempt_ne mL root (i := b + 1) (j := a + 1) (by omega) (by omega) hab.symm
  have hsub : (Finset.range (used.length + 1)).image (fun k => slugAttempt mL root (k + 1)) ⊆
      used.toFinset := by
    intro s hs
    rw [Finset.mem_image] at hs
    obtain ⟨k, hk, rfl⟩ := hs
    rw [List.mem_toFinset]
    rw [Finset.mem_range] at hk
    exact hc (k + 1) (by omega)
  have h1 := Finset.card_le_card hsub
  rw [Finset.card_image_of_injOn hinj, Finset.card_range] at h1
  have h2 := List.toFinset_card_le used
  omega

theorem generate_unique_slug_spec (used : List (List Char)) (mL : Option Nat)
    (base : List Char) :
    ∃ k, k ≤ used.length + 1 ∧
      generate_unique_slug used mL base = slugAttempt mL (slugRoot mL base) k ∧
      slugAttempt mL (slugRoot mL base) k ∉ used ∧
      ∀ m, m < k → slugAttempt mL (slugRoot mL base) m ∈ used := by
  obtain ⟨k0, hk0, hk0u⟩ := exists_unused_attempt used mL (slugRoot mL base)
  have hs := uniqueSlugFrom_isSome used mL (slugRoot mL base) (used.length + 2) 0
    ⟨k0, hk0, by simpa using hk0u⟩
  obtain ⟨s, hsome⟩ := Option.isSome_iff_exists.mp hs
  obtain ⟨k, _, hk2, hk3, hk4, hk5⟩ :=
    uniqueSlugFrom_spec used mL (slugRoot mL base) (used.length + 2) 0 s hsome
  refine ⟨k, by omega, ?_, hk4, fun m hm => hk5 m (by omega) hm⟩
  rw [generate_unique_slug, hsome]
  simpa using hk3

/-! ### Shape of the strings produced by slugify -/

/-- No two adjacent hyphens: the pairwise relation asserted along a slug. -/
def noTwoHyphens (a b : Char) : Prop := a ≠ '-' ∨ b ≠ '-'

theorem collapseAux_head_true : ∀ (l : List Char) (c : Char),
    (collapseAux true l).head? = some c → isSpaceHy c = false := by
  intro l
  induction l with
  | nil =>
    intro c h
    simp [collapseAux] at h
  | cons d rest ih =>
    intro c h
    simp only [collapseAux] at h
    by_cases hd : isSpaceHy d
    · rw [if_pos hd] at h
      simp only [if_true] at h
      exact ih c h
    · rw [if_neg hd] at h
      simp only [List.head?_cons, Option.some.injEq] at h
      rw [← h]
      simpa using hd

theorem collapseAux_chain' : ∀ (l : List Char) (b : Bool),
    List.Chain' noTwoHyphens (collapseAux b l) := by
  intro l
  induction l with
  | nil =>
    intro b
    simp [collapseAux]
  | cons d rest ih =>
    intro b
    simp only [collapseAux]
    by_cases hd : isSpaceHy d
    · rw [if_pos hd]
      cases b with
      | true =>
        simpa using ih true
      | false =>
        simp only [Bool.false_eq_true, if_false]
        rw [List.chain'_cons']
        refine ⟨?_, ih true⟩
        intro y hy
        rw [Option.mem_def] at hy
        have hns := collapseAux_head_true rest y hy
        right
        intro hc
        rw [hc] at hns
        exact absurd hns (by simp [isSpaceHy])
    · rw [if_neg hd]
      rw [List.chain'_cons']
      refine ⟨?_, ih false⟩
      intro y _
      left
      intro hc
      rw [hc] at hd
      exact hd (by simp [isSpaceHy])

theorem collapseAux_mem : ∀ (l : List Char) (b : Bool) (c : Char), c ∈ collapseAux b l →
    c = '-' ∨ (c ∈ l ∧ isSpaceHy c = false) := by
  intro l
  induction l with
  | nil =>
    intro b c h
    simp [collapseAux] at h
  | cons d rest ih =>
    intro b c h
    simp only [collapseAux] at h
    by_cases hd : isSpaceHy d
    · rw [if_pos hd] at h
      have h' : c = '-' ∨ c ∈ collapseAux true rest := by
        cases b with
        | true => exact Or.inr (by simpa using h)
        | false =>
          simp only [Bool.false_eq_true, if_false, List.mem_cons] at h
          exact h
      rcases h' with rfl | h2
      · exact Or.inl rfl
      · rcases ih true c h2 with h1 | ⟨h1, h3⟩
        · exact Or.inl h1
        · exact Or.inr ⟨List.mem_cons_of_mem _ h1, h3⟩
    · rw [if_neg hd] at h
      rcases List.mem_cons.mp h with rfl | h
      · exact Or.inr ⟨List.mem_cons_self _ _, by simpa using hd⟩
      · rcases ih false c h with h1 | ⟨h1, h2⟩
        · exact Or.inl h1
        · exact Or.inr ⟨List.mem_cons_of_mem _ h1, h2⟩

theorem stripChar_isInfix (p : Char → Bool) (l : List Char) : stripChar p l <:+: l := by
  have h1 : stripChar p l <+: l.dropWhile p := List.rdropWhile_prefix p (l.dropWhile p)
  have h2 : l.dropWhile p <:+ l := List.dropWhile_suffix p
  exact h1.isInfix.trans h2.isInfix

theorem stripChar_subset {p : Char → Bool} {l : List Char} {c : Char}
    (h : c ∈ stripChar p l) : c ∈ l :=
  (stripChar_isInfix p l).sublist.subset h

theorem stripChar_chain' {R : Char → Char → Prop} {p : Char → Bool} {l : List Char}
    (h : List.Chain' R l) : List.Chain' R (stripChar p l) :=
  h.infix (stripChar_isInfix p l)

theorem stripChar_head {p : Char → Bool} {l : List Char} {c : Char}
    (h : (stripChar p l).head? = some c) : p c = false := by
  have hne : stripChar p l ≠ [] := by
    intro h0
    rw [h0] at h
    simp at h
  have h1 : stripChar p l <+: l.dropWhile p := List.rdropWhile_prefix p (l.dropWhile p)
  obtain ⟨t, ht⟩ := h1
  have hd : (l.dropWhile p).head? = some c := by
    cases hs : stripChar p l with
    | nil => exact absurd hs hne
    | cons a as =>
      rw [hs] at h ht
      simp only [List.head?_cons, Option.some.injEq] at h
      rw [← ht, List.cons_append, List.head?_cons, h]
  have hw : l.dropWhile p ≠ [] := by
    intro h0
    rw [h0] at hd
    simp at hd
  have hnot := List.head_dropWhile_not p l hw
  rw [List.head?_eq_head hw] at hd
  simp only [Option.some.injEq] at hd
  rw [← hd]
  exact hnot

theorem stripChar_getLast {p : Char → Bool} {l : List Char} {c : Char}
    (h : (stripChar p l).getLast? = some c) : p c = false := by
  have hne : stripChar p l ≠ [] := by
    intro h0
    rw [h0] at h
    simp at h
  have hlast := List.rdropWhile_last_not p (l.dropWhile p) hne
  rw [List.getLast?_eq_getLast _ hne] at h
  simp only [Option.some.injEq] at h
  rw [← h]
  simpa using hlast

/-! ### Lemmas about the excerpt helper -/

theorem beforeLastSpace_length_le (l : List Char) : (beforeLastSpace l).length ≤ l.length := by
  rw [beforeLastSpace]
  split
  · simp only [List.length_reverse, List.length_drop]
    have h1 : (l.reverse.dropWhile fun c => c != ' ').length ≤ l.reverse.length :=
      (List.dropWhile_sublist _).length_le
    simp only [List.length_reverse] at h1
    omega
  · exact Nat.le_refl _

theorem beforeLastSpace_of_not_mem {l : List Char} (h : ' ' ∉ l) : beforeLastSpace l = l := by
  rw [beforeLastSpace, if_neg h]

theorem beforeLastSpace_split {a b : List Char} (hb : ' ' ∉ b) :
    beforeLastSpace (a ++ ' ' :: b) = a := by
  have hmem : ' ' ∈ a ++ ' ' :: b := List.mem_append_right _ (List.mem_cons_self _ _)
  rw [beforeLastSpace, if_pos hmem, List.reverse_append, List.reverse_cons]
  have hb1 : (b.reverse.dropWhile fun c => c != ' ') = [] := by
    rw [List.dropWhile_eq_nil_iff]
    intro x hx
    rw [List.mem_reverse] at hx
    simp only [bne_iff_ne, ne_eq]
    intro hx'
    rw [hx'] at hx
    exact hb hx
  have h1 : ((b.reverse ++ [' ']).dropWhile fun c => c != ' ') = [' '] := by
    rw [List.dropWhile_append, hb1]
    simp [List.dropWhile]
  have h2 : (((b.reverse ++ [' ']) ++ a.reverse).dropWhile fun c => c != ' ') =
      ' ' :: a.reverse := by
    rw [List.dropWhile_append, h1]
    simp
  rw [List.append_assoc] at h2 ⊢
  rw [h2]
  simp

/-! ### The toggle actions -/

theorem toggleFlipTool_id (tid : Nat) (t : Tool) : (toggleFlipTool tid t).id = t.id := by
  rw [toggleFlipTool]
  split <;> rfl

theorem toggleFlipTool_title (tid : Nat) (t : Tool) :
    (toggleFlipTool tid t).title = t.title := by
  rw [toggleFlipTool]
  split <;> rfl

theorem toggleFlipTool_slug (tid : Nat) (t : Tool) : (toggleFlipTool tid t).slug = t.slug := by
  rw [toggleFlipTool]
  split <;> rfl

theorem toggleFlipTool_summary (tid : Nat) (t : Tool) :
    (toggleFlipTool tid t).summary = t.summary := by
  rw [toggleFlipTool]
  split <;> rfl

theorem toggleFlipTool_content (tid : Nat) (t : Tool) :
    (toggleFlipTool tid t).content = t.content := by
  rw [toggleFlipTool]
  split <;> rfl

theorem toggleFlipTool_created_at (tid : Nat) (t : Tool) :
    (toggleFlipTool tid t).created_at = t.created_at := by
  rw [toggleFlipTool]
  split <;> rfl

theorem toggleFlipTool_pub (tid : Nat) (t : Tool) :
    (toggleFlipTool tid t).is_published =
      if t.id == tid then !t.is_published else t.is_published := by
  rw [toggleFlipTool]
  split <;> rfl

theorem toggleFlipTool_invol (tid : Nat) (t : Tool) :
    toggleFlipTool tid (toggleFlipTool tid t) = t := by
  by_cases h : t.id == tid <;> simp [toggleFlipTool, h, Bool.not_not]

theorem toggleFlipPost_id (pid : Nat) (p : Post) : (toggleFlipPost pid p).id = p.id := by
  rw [toggleFlipPost]
  split <;> rfl

theorem toggleFlipPost_title (pid : Nat) (p : Post) :
    (toggleFlipPost pid p).title = p.title := by
  rw [toggleFlipPost]
  split <;> rfl

theorem toggleFlipPost_slug (pid : Nat) (p : Post) : (toggleFlipPost pid p).slug = p.slug := by
  rw [toggleFlipPost]
  split <;> rfl

theorem toggleFlipPost_excerpt (pid : Nat) (p : Post) :
    (toggleFlipPost pid p).excerpt = p.excerpt := by
  rw [toggleFlipPost]
  split <;> rfl

theorem toggleFlipPost_content (pid : Nat) (p : Post) :
    (toggleFlipPost pid p).content = p.content := by
  rw [toggleFlipPost]
  split <;> rfl

theorem toggleFlipPost_created_at (pid : Nat) (p : Post) :
    (toggleFlipPost pid p).created_at = p.created_at := by
  rw [toggleFlipPost]
  split <;> rfl

theorem toggleFlipPost_pub (pid : Nat) (p : Post) :
    (toggleFlipPost pid p).is_published =
      if p.id == pid then !p.is_published else p.is_published := by
  rw [toggleFlipPost]
  split <;> rfl

theorem toggleFlipPost_invol (pid : Nat) (p : Post) :
    toggleFlipPost pid (toggleFlipPost pid p) = p := by
  by_cases h : p.id == pid <;> simp [toggleFlipPost, h, Bool.not_not]

/-- C9: for every entity identifier that exists, the toggle action flips only
the published flag and always succeeds, and applying it twice returns the
store to its original value; for an identifier that does not exist it yields
the not-found condition and changes no state. Stated for toggle_tool and
toggle_post. -/
theorem toggle_published_involutive :
    (∀ (tools : List Tool) (tid : Nat),
      ((∃ t ∈ tools, t.id = tid) → ∃ tools2,
        toggle_tool tools tid = some tools2 ∧
        toggle_tool tools2 tid = some tools ∧
        tools2.length = tools.length ∧
        ∀ i (h1 : i < tools.length) (h2 : i < tools2.length),
          (tools2.get ⟨i, h2⟩).id = (tools.get ⟨i, h1⟩).id ∧
          (tools2.get ⟨i, h2⟩).title = (tools.get ⟨i, h1⟩).title ∧
          (tools2.get ⟨i, h2⟩).slug = (tools.get ⟨i, h1⟩).slug ∧
          (tools2.get ⟨i, h2⟩).summary = (tools.get ⟨i, h1⟩).summary ∧
          (tools2.get ⟨i, h2⟩).content = (tools.get ⟨i, h1⟩).content ∧
          (tools2.get ⟨i, h2⟩).created_at = (tools.get ⟨i, h1⟩).created_at ∧
          ((tools.get ⟨i, h1⟩).id = tid →
            (tools2.get ⟨i, h2⟩).is_published = !(tools.get ⟨i, h1⟩).is_published) ∧
          ((tools.get ⟨i, h1⟩).id ≠ tid →
            (tools2.get ⟨i, h2⟩).is_published = (tools.get ⟨i, h1⟩).is_published)) ∧
      ((∀ t ∈ tools, t.id ≠ tid) → toggle_tool tools tid = none)) ∧
    (∀ (posts : List Post) (pid : Nat),
      ((∃ p ∈ posts, p.id = pid) → ∃ posts2,
        toggle_post posts pid = some posts2 ∧
        toggle_post posts2 pid = some posts ∧
        posts2.length = posts.length ∧
        ∀ i (h1 : i < posts.length) (h2 : i < posts2.length),
          (posts2.get ⟨i, h2⟩).id = (posts.get ⟨i, h1⟩).id ∧
          (posts2.get ⟨i, h2⟩).title = (posts.get ⟨i, h1⟩).title ∧
          (posts2.get ⟨i, h2⟩).slug = (posts.get ⟨i, h1⟩).slug ∧
          (posts2.get ⟨i, h2⟩).excerpt = (posts.get ⟨i, h1⟩).excerpt ∧
          (posts2.get ⟨i, h2⟩).content = (posts.get ⟨i, h1⟩).content ∧
          (posts2.get ⟨i, h2⟩).created_at = (posts.get ⟨i, h1⟩).created_at ∧
          ((posts.get ⟨i, h1⟩).id = pid →
            (posts2.get ⟨i, h2⟩).is_published = !(posts.get ⟨i, h1⟩).is_published) ∧
          ((posts.get ⟨i, h1⟩).id ≠ pid →
            (posts2.get ⟨i, h2⟩).is_published = (posts.get ⟨i, h1⟩).is_published)) ∧
      ((∀ p ∈ posts, p.id ≠ pid) → toggle_post posts pid = none)) := by
  constructor
  · intro tools tid
    constructor
    · intro hex
      have ha : (tools.any fun t => t.id == tid) = true := by
        rw [List.any_eq_true]
        obtain ⟨t, ht, hid⟩ := hex
        exact ⟨t, ht, by simpa using hid⟩
      refine ⟨tools.map (toggleFlipTool tid), by rw [toggle_tool, if_pos ha], ?_, by simp, ?_⟩
      · rw [toggle_tool]
        have ha2 : ((tools.map (toggleFlipTool tid)).any fun t => t.id == tid) = true := by
          rw [List.any_eq_true] at ha ⊢
          obtain ⟨t, ht, hid⟩ := ha
          exact ⟨toggleFlipTool tid t, List.mem_map_of_mem _ ht,
            by rw [toggleFlipTool_id]; exact hid⟩
        rw [if_pos ha2]
        congr 1
        rw [List.map_map]
        have hc : ∀ t ∈ tools, (toggleFlipTool tid ∘ toggleFlipTool tid) t = id t :=
          fun t _ => toggleFlipTool_invol tid t
        rw [List.map_congr_left hc, List.map_id]
      · intro i h1 h2
        have hg : (tools.map (toggleFlipTool tid)).get ⟨i, h2⟩ =
            toggleFlipTool tid (tools.get ⟨i, h1⟩) := by
          simp [List.getElem_map]
        rw [hg]
        refine ⟨toggleFlipTool_id _ _, toggleFlipTool_title _ _, toggleFlipTool_slug _ _,
          toggleFlipTool_summary _ _, toggleFlipTool_content _ _,
          toggleFlipTool_created_at _ _, ?_, ?_⟩
        · intro hid
          rw [toggleFlipTool_pub, if_pos (by simpa using hid)]
        · intro hid
          rw [toggleFlipTool_pub, if_neg (by simpa using hid)]
    · intro hnone
      have hna : ¬(tools.any fun t => t.id == tid) = true := by
        rw [List.any_eq_true]
        rintro ⟨t, ht, hid⟩
        exact hnone t ht (by simpa using hid)
      rw [toggle_tool, if_neg hna]
  · intro posts pid
    constructor
    · intro hex
      have ha : (posts.any fun p => p.id == pid) = true := by
        rw [List.any_eq_true]
        obtain ⟨p, hp, hid⟩ := hex
        exact ⟨p, hp, by simpa using hid⟩
      refine ⟨posts.map (toggleFlipPost pid), by rw [toggle_post, if_pos ha], ?_, by simp, ?_⟩
      · rw [toggle_post]
        have ha2 : ((posts.map (toggleFlipPost pid)).any fun p => p.id == pid) = true := by
          rw [List.any_eq_true] at ha ⊢
          obtain ⟨p, hp, hid⟩ := ha
          exact ⟨toggleFlipPost pid p, List.mem_map_of_mem _ hp,
            by rw [toggleFlipPost_id]; exact hid⟩
        rw [if_pos ha2]
        congr 1
        rw [List.map_map]
        have hc : ∀ p ∈ posts, (toggleFlipPost pid ∘ toggleFlipPost pid) p = id p :=
          fun p _ => toggleFlipPost_invol pid p
        rw [List.map_congr_left hc, List.map_id]
      · intro i h1 h2
        have hg : (posts.map (toggleFlipPost pid)).get ⟨i, h2⟩ =
            toggleFlipPost pid (posts.get ⟨i, h1⟩) := by
          simp [List.getElem_map]
        rw [hg]
        refine ⟨toggleFlipPost_id _ _, toggleFlipPost_title _ _, toggleFlipPost_slug _ _,
          toggleFlipPost_excerpt _ _, toggleFlipPost_content _ _,
          toggleFlipPost_created_at _ _, ?_, ?_⟩
        · intro hid
          rw [toggleFlipPost_pub, if_pos (by simpa using hid)]
        · intro hid
          rw [toggleFlipPost_pub, if_neg (by simpa using hid)]
    · intro hnone
      have hna : ¬(posts.any fun p => p.id == pid) = true := by
        rw [List.any_eq_true]
        rintro ⟨p, hp, hid⟩
        exact hnone p hp (by simpa using hid)
      rw [toggle_post, if_neg hna]

/-- C10: the length of the derived excerpt never exceeds the larger of the
trimmed content length and max_length, and whenever the trimmed content is
longer than max_length the excerpt fits in max_length, so an excerpt derived
with the column limit cannot fail the subsequent length validation. -/
theorem derive_excerpt_length_bound :
    ∀ (content : List Char) (max_length : Nat),
      (derive_excerpt content max_length).length ≤
        max (pyStrip content).length max_length ∧
      (max_length < (pyStrip content).length →
        (derive_excerpt content max_length).length ≤ max_length) := by
  intro content m
  simp only [derive_excerpt]
  by_cases h : (pyStrip content).length ≤ m
  · rw [if_pos h]
    exact ⟨le_max_left _ _, fun hm => by omega⟩
  · rw [if_neg h]
    have h2 : ((pyStrip content).take m).length ≤ m := by
      rw [List.length_take]
      exact min_le_left _ _
    have hb : (beforeLastSpace ((pyStrip content).take m)).length ≤ m := by
      have h1 := beforeLastSpace_length_le ((pyStrip content).take m)
      omega
    constructor
    · split
      · exact le_trans h2 (le_max_right _ _)
      · exact le_trans hb (le_max_right _ _)
    · intro _
      split
      · exact h2
      · exact hb

/-- C4 as stated is false: derive_excerpt cuts at the last space character
only, not at the last whitespace boundary; a window whose only whitespace is
a tab is returned whole instead of being cut back at the tab. -/
theorem derive_excerpt_whitespace_counterexample :
    derive_excerpt ("ab\tcdefgh".toList) 5 = "ab\tcd".toList ∧
    isPySpace '\t' = true ∧
    '\t' ∈ ("ab\tcdefgh".toList).take 5 ∧
    derive_excerpt ("ab\tcdefgh".toList) 5 ≠ ("ab\tcdefgh".toList).take 2 := by
  refine ⟨by decide, by decide, by decide, by decide⟩

/-- C4 amended: for content whose trimmed form is longer than max_length,
derive_excerpt takes the first max_length characters and cuts back to the
last space (not general whitespace) in that window; with no space in the
window, or when the cut is empty, it returns the raw window; and the two
examples from the spec hold. -/
theorem derive_excerpt_space_cut :
    (∀ (content : List Char) (m : Nat),
      ((pyStrip content).length ≤ m → derive_excerpt content m = pyStrip content) ∧
      (m < (pyStrip content).length →
        (' ' ∉ (pyStrip content).take m →
          derive_excerpt content m = (pyStrip content).take m) ∧
        (∀ a b, (pyStrip content).take m = a ++ ' ' :: b → ' ' ∉ b →
          (a ≠ [] → derive_excerpt content m = a) ∧
          (a = [] → derive_excerpt content m = (pyStrip content).take m)))) ∧
    derive_excerpt ("The quick brown fox jumps".toList) 10 = "The quick".toList ∧
    derive_excerpt ("Supercalifragilisticexpialidocious".toList) 10 =
      ("Supercalifragilisticexpialidocious".toList).take 10 := by
  refine ⟨?_, by decide, by decide⟩
  intro content m
  constructor
  · intro h
    simp only [derive_excerpt]
    rw [if_pos h]
  · intro h
    have hc : ¬((pyStrip content).length ≤ m) := by omega
    constructor
    · intro hns
      have hb : beforeLastSpace ((pyStrip content).take m) = (pyStrip content).take m :=
        beforeLastSpace_of_not_mem hns
      simp only [derive_excerpt]
      rw [if_neg hc, hb]
      split <;> rfl
    · intro a b hab hb
      have hsplit : beforeLastSpace ((pyStrip content).take m) = a := by
        rw [hab]
        exact beforeLastSpace_split hb
      constructor
      · intro ha
        simp only [derive_excerpt]
        rw [if_neg hc, hsplit, if_neg ha]
      · intro ha
        simp only [derive_excerpt]
        rw [if_neg hc, hsplit, if_pos ha]

/-- C1: with no length bound the resolver returns the base slug unchanged
when it is unused; otherwise it returns base-k for the first counter k at
least 1 whose candidate is unused, every smaller counter colliding; and the
two examples from the spec hold. -/
theorem generate_unique_slug_counter_spec :
    (∀ (base : List Char) (used : List (List Char)),
      (base ∉ used → generate_unique_slug used none base = base) ∧
      (base ∈ used → ∃ k, 1 ≤ k ∧
        generate_unique_slug used none base = base ++ '-' :: natDigits k ∧
        (base ++ '-' :: natDigits k) ∉ used ∧
        ∀ m, 1 ≤ m → m < k → (base ++ '-' :: natDigits m) ∈ used)) ∧
    generate_unique_slug ["my-tool".toList] none ("my-tool".toList) = "my-tool-1".toList ∧
    generate_unique_slug ["my-tool".toList, "my-tool-1".toList] none ("my-tool".toList) =
      "my-tool-2".toList := by
  refine ⟨?_, by decide, by decide⟩
  intro base used
  have hroot : slugRoot none base = base := by
    simp [slugRoot, optTruthy]
  have hatt : ∀ i : Nat, i ≠ 0 → slugAttempt none base i = base ++ '-' :: natDigits i := by
    intro i hi
    rw [slugAttempt_pos none base hi]
    simp [trimmedRoot, optTruthy]
  obtain ⟨k, hk1, hk2, hk3, hk4⟩ := generate_unique_slug_spec used none base
  rw [hroot] at hk2 hk3 hk4
  constructor
  · intro hb
    rcases Nat.eq_zero_or_pos k with rfl | hpos
    · rw [hk2, slugAttempt_zero]
    · exfalso
      have h0 := hk4 0 hpos
      rw [slugAttempt_zero] at h0
      exact hb h0
  · intro hb
    have hk0 : k ≠ 0 := by
      intro h0
      rw [h0, slugAttempt_zero] at hk3
      exact hk3 hb
    refine ⟨k, by omega, ?_, ?_, ?_⟩
    · rw [hk2, hatt k hk0]
    · rw [← hatt k hk0]
      exact hk3
    · intro m hm1 hm2
      have hm := hk4 m hm2
      rw [hatt m (by omega)] at hm
      exact hm

/-- C5: the unique-slug loop terminates for every base slug and finite used
set when max_length is unset or at least the minimum suffix width: within
two more steps than there are used slugs the loop finds an unused candidate. -/
theorem generate_unique_slug_terminates :
    ∀ (base : List Char) (used : List (List Char)) (mL : Option Nat),
      (mL = none ∨ ∃ L, mL = some L ∧ 2 ≤ L) →
      (uniqueSlugFrom used mL (slugRoot mL base) (used.length + 2) 0).isSome := by
  intro base used mL _
  obtain ⟨k, hk, hku⟩ := exists_unused_attempt used mL (slugRoot mL base)
  exact uniqueSlugFrom_isSome used mL (slugRoot mL base) (used.length + 2) 0
    ⟨k, hk, by simpa using hku⟩

/-- Witness for C5 at a concrete input: the bound 8 satisfies the width
hypothesis and the loop terminates on the spec example. -/
theorem generate_unique_slug_terminates_witness :
    ((some 8 : Option Nat) = none ∨ ∃ L, (some 8 : Option Nat) = some L ∧ 2 ≤ L) ∧
    (uniqueSlugFrom ["abcdefgh".toList] (some 8) (slugRoot (some 8) ("abcdefgh".toList))
      (["abcdefgh".toList].length + 2) 0).isSome :=
  ⟨Or.inr ⟨8, rfl, by omega⟩,
   generate_unique_slug_terminates ("abcdefgh".toList) ["abcdefgh".toList] (some 8)
     (Or.inr ⟨8, rfl, by omega⟩)⟩

/-- C7 fails as stated: with a bound too small for any suffix the resolver
does not fail fast with a configuration error; it silently returns a slug
with a leading hyphen, violating the slug format. -/
theorem generate_unique_slug_no_failfast_counterexample :
    generate_unique_slug ["ab".toList] (some 2) ("ab".toList) = "-1".toList ∧
    ("-1".toList).head? = some '-' := by
  refine ⟨by decide, by decide⟩

/-- C7 amended: under a degenerate bound the resolver still terminates for
every finite used set, but instead of failing fast it can return a slug that
violates the slug format or even the length bound, as at max_length 1. -/
theorem generate_unique_slug_degenerate_behavior :
    (∀ (used : List (List Char)) (base : List Char) (L : Nat),
      (uniqueSlugFrom used (some L) (slugRoot (some L) base) (used.length + 2) 0).isSome) ∧
    generate_unique_slug ["a".toList, "-1".toList] (some 1) ("a".toList) = "-2".toList ∧
    1 < ("-2".toList).length := by
  refine ⟨?_, by decide, by decide⟩
  intro used base L
  obtain ⟨k, hk, hku⟩ := exists_unused_attempt used (some L) (slugRoot (some L) base)
  exact uniqueSlugFrom_isSome used (some L) (slugRoot (some L) base) (used.length + 2) 0
    ⟨k, hk, by simpa using hku⟩

/-- C2 fails as stated: at max_length 1 the Python negative slice empties the
root and the returned slug minus-one has length 2, exceeding the declared
maximum. -/
theorem generate_unique_slug_maxlen_counterexample :
    generate_unique_slug ["a".toList] (some 1) ("a".toList) = "-1".toList ∧
    1 < (generate_unique_slug ["a".toList] (some 1) ("a".toList)).length := by
  refine ⟨by decide, by decide⟩

/-- C2 amended: whenever max_length is at least one more than the number of
decimal digits of used.length + 1 (so that every suffix the loop can reach
fits), each returned slug has length at most max_length; the base slug is
truncated to max_length before the first existence comparison; and the spec
example at bound 8 holds. -/
theorem generate_unique_slug_maxlen_bound :
    (∀ (base : List Char) (used : List (List Char)) (L : Nat),
      1 + (natDigits (used.length + 1)).length ≤ L →
      (generate_unique_slug used (some L) base).length ≤ L) ∧
    (∀ (base : List Char) (used : List (List Char)) (L : Nat),
      1 ≤ L → base.take L ∉ used →
      generate_unique_slug used (some L) base = base.take L) ∧
    generate_unique_slug ["abcdefgh".toList] (some 8) ("abcdefgh".toList) =
      "abcdef-1".toList ∧
    ("abcdef-1".toList).length ≤ 8 ∧
    "abcdef-1".toList ≠ "abcdefgh".toList := by
  refine ⟨?_, ?_, by decide, by decide, by decide⟩
  · intro base used L hL
    have hdig1 := natDigits_length_pos (used.length + 1)
    have htruthy : optTruthy (some L) = true := by
      simp only [optTruthy, bne_iff_ne, ne_eq, decide_eq_true_eq]
      omega
    have hroot_len : (slugRoot (some L) base).length ≤ L := by
      rw [slugRoot, if_pos htruthy]
      simp only [Option.getD_some, List.length_take]
      exact min_le_left _ _
    obtain ⟨k, hk1, hk2, hk3, hk4⟩ := generate_unique_slug_spec used (some L) base
    rw [hk2]
    rcases Nat.eq_zero_or_pos k with rfl | hpos
    · rw [slugAttempt_zero]
      exact hroot_len
    · have hk0 : k ≠ 0 := by omega
      rw [slugAttempt_pos _ _ hk0]
      have hdk : (natDigits k).length ≤ (natDigits (used.length + 1)).length :=
        natDigits_length_mono _ _ hk1
      have hfit : 1 + (natDigits k).length ≤ L := by omega
      rw [trimmedRoot, if_pos htruthy]
      simp only [Option.getD_some]
      have hnon : (0 : Int) ≤ (L : Int) - ((1 + (natDigits k).length : Nat) : Int) := by
        omega
      rw [pySliceTo, if_pos hnon]
      have htn : ((L : Int) - ((1 + (natDigits k).length : Nat) : Int)).toNat =
          L - (1 + (natDigits k).length) := by
        omega
      rw [htn]
      simp only [List.length_append, List.length_cons, List.length_take]
      have hmin : min (L - (1 + (natDigits k).length)) (slugRoot (some L) base).length ≤
          L - (1 + (natDigits k).length) := min_le_left _ _
      omega
  · intro base used L hLpos hfree
    have htruthy : optTruthy (some L) = true := by
      simp only [optTruthy, bne_iff_ne, ne_eq, decide_eq_true_eq]
      omega
    have hroot : slugRoot (some L) base = base.take L := by
      rw [slugRoot, if_pos htruthy]
      simp only [Option.getD_some]
    obtain ⟨k, hk1, hk2, hk3, hk4⟩ := generate_unique_slug_spec used (some L) base
    rcases Nat.eq_zero_or_pos k with rfl | hpos
    · rw [hk2, slugAttempt_zero, hroot]
    · exfalso
      have h0 := hk4 0 hpos
      rw [slugAttempt_zero, hroot] at h0
      exact hfree h0

theorem digitChar_isDigit : ∀ m : Nat, m < 10 → (Nat.digitChar m).isDigit = true := by
  intro m hm
  interval_cases m <;> decide

theorem natDigits_all_isDigit : ∀ n : Nat, (natDigits n).all Char.isDigit = true := by
  intro n
  induction n using Nat.strong_induction_on with
  | _ n ih =>
    rw [natDigits_unfold]
    by_cases hn : n < 10
    · rw [if_pos hn]
      simp [digitChar_isDigit n hn]
    · rw [if_neg hn]
      simp [List.all_append, ih (n / 10) (Nat.div_lt_self (by omega) (by omega)),
        digitChar_isDigit (n % 10) (Nat.mod_lt _ (by omega))]

/-- C6: whenever the cleaned form of the input is empty, slugify returns the
non-empty fallback of the prefix, a hyphen and the decimal digits of the
current time in whole seconds; the inputs of the spec examples produce an
empty cleaned form and hence the fallback. -/
theorem slugify_fallback_spec :
    (∀ (value fp : List Char) (now : Nat),
      cleanedSlug value = [] →
        slugify value fp now = fp ++ '-' :: natDigits now ∧
        slugify value fp now ≠ [] ∧
        (natDigits now).all Char.isDigit = true) ∧
    cleanedSlug ("".toList) = [] ∧
    cleanedSlug ("!!!".toList) = [] ∧
    slugify ("".toList) ("item".toList) 1700000000 = "item-1700000000".toList ∧
    slugify ("!!!".toList) ("post".toList) 1700000000 = "post-1700000000".toList := by
  refine ⟨?_, by decide, by decide, by decide, by decide⟩
  intro value fp now h
  have hval : slugify value fp now = fp ++ '-' :: natDigits now := by
    simp only [slugify]
    rw [if_pos h]
  refine ⟨hval, ?_, natDigits_all_isDigit now⟩
  rw [hval]
  simp

theorem chain'_of_no_hyphen : ∀ l : List Char, (∀ c ∈ l, c ≠ '-') →
    List.Chain' noTwoHyphens l := by
  intro l
  induction l with
  | nil =>
    intro _
    simp
  | cons a l ih =>
    intro h
    rw [List.chain'_cons']
    exact ⟨fun y _ => Or.inl (h a (List.mem_cons_self _ _)),
      ih fun c hc => h c (List.mem_cons_of_mem _ hc)⟩

theorem keepChar_not_upper {c : Char} (h : keepChar c = true) : ¬('A' ≤ c ∧ c ≤ 'Z') := by
  rintro ⟨h1, h2⟩
  simp only [keepChar, isPySpace, Bool.or_eq_true, Bool.and_eq_true, decide_eq_true_eq,
    beq_iff_eq] at h
  casesm* _ ∨ _
  all_goals rename_i hlast
  all_goals first
    | exact absurd (le_trans hlast.1 h2) (by decide)
    | exact absurd (le_trans h1 hlast.2) (by decide)
    | (subst hlast; exact absurd h1 (by decide))

theorem fallback_wellformed (fp : List Char) (now : Nat)
    (h1 : ∀ c ∈ fp, ¬('A' ≤ c ∧ c ≤ 'Z') ∧ c ≠ '-') (h3 : fp ≠ []) :
    (∀ c ∈ fp ++ '-' :: natDigits now, ¬('A' ≤ c ∧ c ≤ 'Z')) ∧
    List.Chain' noTwoHyphens (fp ++ '-' :: natDigits now) ∧
    (fp ++ '-' :: natDigits now).head? ≠ some '-' ∧
    (fp ++ '-' :: natDigits now).getLast? ≠ some '-' := by
  have hdig : ∀ c ∈ natDigits now, c ≠ '-' := fun c hc => natDigits_mem_ne_hyphen hc
  have hdigup : ∀ c ∈ natDigits now, ¬('A' ≤ c ∧ c ≤ 'Z') := by
    intro c hc
    rintro ⟨hA, _⟩
    have h9 := (natDigits_mem now c hc).2
    exact absurd (le_trans hA h9) (by decide)
  refine ⟨?_, ?_, ?_, ?_⟩
  · intro c hc
    rcases List.mem_append.mp hc with hc | hc
    · exact (h1 c hc).1
    · rcases List.mem_cons.mp hc with rfl | hc
      · exact (by decide)
      · exact hdigup c hc
  · rw [List.chain'_append]
    refine ⟨chain'_of_no_hyphen fp (fun c hc => (h1 c hc).2), ?_, ?_⟩
    · rw [List.chain'_cons']
      refine ⟨?_, chain'_of_no_hyphen _ hdig⟩
      intro y hy
      rw [Option.mem_def] at hy
      exact Or.inr (hdig y (List.mem_of_mem_head? hy))
    · intro x hx y _
      rw [Option.mem_def] at hx
      exact Or.inl ((h1 x (List.mem_of_getLast?_eq_some hx)).2)
  · cases fp with
    | nil => exact absurd rfl h3
    | cons a fp2 =>
      rw [List.cons_append, List.head?_cons]
      intro hcontra
      rw [Option.some.injEq] at hcontra
      exact (h1 a (List.mem_cons_self _ _)).2 hcontra
  · have hdne : natDigits now ≠ [] := natDigits_ne_nil now
    have hdl : (natDigits now).getLast? = some ((natDigits now).getLast hdne) :=
      List.getLast?_eq_getLast _ hdne
    have hsplit : fp ++ '-' :: natDigits now = fp ++ (['-'] ++ natDigits now) := rfl
    rw [hsplit, List.getLast?_append, List.getLast?_append, hdl]
    simp only [Option.or_some]
    intro hcontra
    rw [Option.some.injEq] at hcontra
    exact hdig _ (List.getLast_mem hdne) hcontra

/-- C3: for every input string and each of the application fallback prefixes,
the slug returned by slugify contains no uppercase ASCII letter, no two
adjacent hyphens, and no leading or trailing hyphen. -/
theorem slugify_wellformed :
    ∀ (value fp : List Char) (now : Nat),
      fp = "item".toList ∨ fp = "tool".toList ∨ fp = "post".toList →
      (∀ c ∈ slugify value fp now, ¬('A' ≤ c ∧ c ≤ 'Z')) ∧
      List.Chain' noTwoHyphens (slugify value fp now) ∧
      (slugify value fp now).head? ≠ some '-' ∧
      (slugify value fp now).getLast? ≠ some '-' := by
  intro value fp now hfp
  by_cases hempty : cleanedSlug value = []
  · have hs : slugify value fp now = fp ++ '-' :: natDigits now := by
      simp only [slugify]
      rw [if_pos hempty]
    rw [hs]
    rcases hfp with rfl | rfl | rfl
    · exact fallback_wellformed _ now (by decide) (by decide)
    · exact fallback_wellformed _ now (by decide) (by decide)
    · exact fallback_wellformed _ now (by decide) (by decide)
  · have hs : slugify value fp now = cleanedSlug value := by
      simp only [slugify]
      rw [if_neg hempty]
    rw [hs]
    refine ⟨?_, ?_, ?_, ?_⟩
    · intro c hc
      have hsub := stripChar_subset hc
      rcases collapseAux_mem _ false c hsub with rfl | ⟨hmem, _⟩
      · exact (by decide)
      · exact keepChar_not_upper (List.mem_filter.mp hmem).2
    · exact stripChar_chain' (collapseAux_chain' _ false)
    · intro heq
      have hh := stripChar_head heq
      simp at hh
    · intro heq
      have hh := stripChar_getLast heq
      simp at hh

/-- Witness for C3 at a concrete input and prefix. -/
theorem slugify_wellformed_witness :
    (("item".toList : List Char) = "item".toList ∨ ("item".toList : List Char) = "tool".toList ∨
      ("item".toList : List Char) = "post".toList) ∧
    ((∀ c ∈ slugify ("Hello, World!".toList) ("item".toList) 0, ¬('A' ≤ c ∧ c ≤ 'Z')) ∧
     List.Chain' noTwoHyphens (slugify ("Hello, World!".toList) ("item".toList) 0) ∧
     (slugify ("Hello, World!".toList) ("item".toList) 0).head? ≠ some '-' ∧
     (slugify ("Hello, World!".toList) ("item".toList) 0).getLast? ≠ some '-') :=
  ⟨Or.inl rfl,
   slugify_wellformed ("Hello, World!".toList) ("item".toList) 0 (Or.inl rfl)⟩

/-- C8 fails as stated: the home view limits its blog block to three rows, so
with four published posts the posts listing is not exactly the published
posts. -/
theorem index_limit_counterexample :
    (index_posts
      [⟨1, [], ['a'], [], [], 1, true⟩, ⟨2, [], ['b'], [], [], 2, true⟩,
       ⟨3, [], ['c'], [], [], 3, true⟩, ⟨4, [], ['d'], [], [], 4, true⟩]).length = 3 ∧
    ([⟨1, [], ['a'], [], [], 1, true⟩, ⟨2, [], ['b'], [], [], 2, true⟩,
      ⟨3, [], ['c'], [], [], 3, true⟩,
      ⟨4, [], ['d'], [], [], 4, true⟩].filter fun p : Post => p.is_published).length = 4 := by
  refine ⟨by decide, by decide⟩

/-- C8 amended: the home view lists exactly the published tools newest first,
while its blog block is the first three of the published posts newest first;
the blog index lists exactly the published posts newest first; and a detail
request yields not-found exactly when no published entity carries the slug,
an unpublished entity with a matching slug included. -/
theorem public_views_published_only :
    ∀ (tools : List Tool) (posts : List Post) (slug : List Char),
      (index_tools tools).Perm (tools.filter fun t => t.is_published) ∧
      (index_tools tools).Sorted toolNewestFirst ∧
      (index_posts posts).Sorted postNewestFirst ∧
      (∀ p ∈ index_posts posts, p.is_published = true) ∧
      (index_posts posts).length = min 3 (posts.filter fun p => p.is_published).length ∧
      (blog_index posts).Perm (posts.filter fun p => p.is_published) ∧
      (blog_index posts).Sorted postNewestFirst ∧
      index_posts posts = (blog_index posts).take 3 ∧
      (tool_detail tools slug = none ↔ ∀ t ∈ tools, t.slug = slug → t.is_published = false) ∧
      (blog_detail posts slug = none ↔ ∀ p ∈ posts, p.slug = slug → p.is_published = false) ∧
      (∀ t, tool_detail tools slug = some t → t.slug = slug ∧ t.is_published = true) ∧
      (∀ p, blog_detail posts slug = some p → p.slug = slug ∧ p.is_published = true) := by
  intro tools posts slug
  have hperm := List.perm_insertionSort postNewestFirst (posts.filter fun p => p.is_published)
  refine ⟨List.perm_insertionSort _ _, List.sorted_insertionSort _ _, ?_, ?_, ?_,
    hperm, List.sorted_insertionSort _ _, rfl, ?_, ?_, ?_, ?_⟩
  · exact List.Pairwise.sublist (List.take_sublist _ _) (List.sorted_insertionSort _ _)
  · intro p hp
    have hmem : p ∈ List.insertionSort postNewestFirst (posts.filter fun p => p.is_published) :=
      (List.take_sublist _ _).subset hp
    have := hperm.mem_iff.mp hmem
    exact List.of_mem_filter this
  · rw [index_posts, List.length_take, hperm.length_eq]
  · constructor
    · intro h t ht hslug
      rw [tool_detail, List.head?_eq_none_iff, List.filter_eq_nil_iff] at h
      have h2 := h t ht
      simp only [Bool.and_eq_true, beq_iff_eq, not_and] at h2
      have h3 := h2 hslug
      simpa using h3
    · intro h
      rw [tool_detail, List.head?_eq_none_iff, List.filter_eq_nil_iff]
      intro t ht
      simp only [Bool.and_eq_true, beq_iff_eq, not_and]
      intro hslug
      rw [h t ht hslug]
      simp
  · constructor
    · intro h p hp hslug
      rw [blog_detail, List.head?_eq_none_iff, List.filter_eq_nil_iff] at h
      have h2 := h p hp
      simp only [Bool.and_eq_true, beq_iff_eq, not_and] at h2
      have h3 := h2 hslug
      simpa using h3
    · intro h
      rw [blog_detail, List.head?_eq_none_iff, List.filter_eq_nil_iff]
      intro p hp
      simp only [Bool.and_eq_true, beq_iff_eq, not_and]
      intro hslug
      rw [h p hp hslug]
      simp
  · intro t ht
    rw [tool_detail] at ht
    have hmem : t ∈ (tools.filter fun t => t.slug == slug && t.is_published) :=
      List.mem_of_mem_head? ht
    have hq := List.of_mem_filter hmem
    simp only [Bool.and_eq_true, beq_iff_eq] at hq
    exact hq
  · intro p hp
    rw [blog_detail] at hp
    have hmem : p ∈ (posts.filter fun p => p.slug == slug && p.is_published) :=
      List.mem_of_mem_head? hp
    have hq := List.of_mem_filter hmem
    simp only [Bool.and_eq_true, beq_iff_eq] at hq
    exact hq
